import Mathlib

/-!
Verification of the `malg` dense linear-algebra kernel.

The Rust sources are shallowly embedded below:
* `Malg.Matrix` models `Matrix<M, N, T>` from `src/lib.rs` (an `M`-by-`N`
  grid of entries; the `data` function is only meaningful at indices
  `r < m`, `c < n`, mirroring the fixed-size array `[[T; N]; M]`);
* `Malg.RowOps` models the `RowOps<Scalar>` trait from
  `src/row_operations.rs`, and `Malg.transform_to_row_echelon_form` is the
  trait's provided method, translated loop-for-loop (the two `for` loops
  become folds over `List.range` / `List.range'`);
* `Malg.AugmentedMatrix` models `AugmentedMatrix<M, N, P, T>` from
  `src/augmented_matrix.rs`;
* `Malg.trace` models `SquareMatrix::trace` from `src/square_matrix.rs`.

Rust panics on out-of-range slice indexing are modelled by the
`checked_*` variants, which return `none` exactly when the corresponding
Rust call panics.

`F2` is a two-element field with fully structural arithmetic; it is used
to evaluate the embedded definitions on concrete inputs.
-/

/-- A two-element field (the field with elements 0 and 1), with
structural arithmetic so that `decide` can evaluate it. -/
inductive F2 where
  | zero
  | one
deriving DecidableEq, Fintype

namespace F2

/-- Addition on `F2` (exclusive or). -/
def add : F2 → F2 → F2
  | .zero, b => b
  | .one, .zero => .one
  | .one, .one => .zero

/-- Multiplication on `F2` (conjunction). -/
def mul : F2 → F2 → F2
  | .one, .one => .one
  | _, _ => .zero

instance : Zero F2 := ⟨F2.zero⟩

instance : One F2 := ⟨F2.one⟩

instance : Add F2 := ⟨F2.add⟩

instance : Mul F2 := ⟨F2.mul⟩

instance : Neg F2 := ⟨id⟩

instance : Inv F2 := ⟨id⟩

instance instField : Field F2 where
  zero := F2.zero
  one := F2.one
  add := F2.add
  mul := F2.mul
  neg := id
  inv := id
  nsmul := nsmulRec
  zsmul := zsmulRec
  add_assoc := (by decide : ∀ a b c, add (add a b) c = add a (add b c))
  zero_add := (by decide : ∀ a, add zero a = a)
  add_zero := (by decide : ∀ a, add a zero = a)
  add_comm := (by decide : ∀ a b, add a b = add b a)
  neg_add_cancel := (by decide : ∀ a, add a a = zero)
  left_distrib := (by decide : ∀ a b c, mul a (add b c) = add (mul a b) (mul a c))
  right_distrib := (by decide : ∀ a b c, mul (add a b) c = add (mul a c) (mul b c))
  zero_mul := (by decide : ∀ a, mul zero a = zero)
  mul_zero := (by decide : ∀ a, mul a zero = zero)
  mul_assoc := (by decide : ∀ a b c, mul (mul a b) c = mul a (mul b c))
  one_mul := (by decide : ∀ a, mul one a = a)
  mul_one := (by decide : ∀ a, mul a one = a)
  mul_comm := (by decide : ∀ a b, mul a b = mul b a)
  exists_pair_ne := ⟨F2.zero, F2.one, by decide⟩
  mul_inv_cancel := (by decide : ∀ a : F2, a ≠ zero → mul a a = one)
  inv_zero := rfl
  nnqsmul := _
  qsmul := _

end F2

namespace Malg

/-- Model of the `M`-by-`N` rectangular matrix with entries of type `K`
(`Matrix<M, N, T>` in `src/lib.rs`).  `data r c` is the entry in row `r`,
column `c`; only indices `r < m`, `c < n` are meaningful. -/
structure Matrix (m n : Nat) (K : Type) where
  data : Nat → Nat → K

/-- The `RowOps<Scalar>` trait of `src/row_operations.rs`: elementary row
operations for an object whose rows are scaled by `K`. -/
class RowOps (α : Type) (K : outParam Type) where
  swap_rows : α → Nat → Nat → α
  scale_row : α → Nat → K → α
  add_rows : α → Nat → Nat → K → α
  get_row : α → Nat → List K
  n_rows : α → Nat
  n_cols : α → Nat

variable {K : Type} {m n p : Nat}

/-- Model of `Matrix::swap_rows` (`src/lib.rs`): exchange rows `i` and `j`. -/
def Matrix.swap_rows (A : Matrix m n K) (i j : Nat) : Matrix m n K :=
  ⟨fun r => if r = i then A.data j else if r = j then A.data i else A.data r⟩

/-- Model of `Matrix::scale_row` (`src/lib.rs`): multiply every entry of row `i`
by `a` (on the right, as in `*entry = *entry * a`). -/
def Matrix.scale_row [Mul K] (A : Matrix m n K) (i : Nat) (a : K) : Matrix m n K :=
  ⟨fun r c => if r = i then A.data r c * a else A.data r c⟩

/-- Model of `Matrix::add_rows` (`src/lib.rs`): replace row `i` by
`row i + row j * a`; the scaled copy of row `j` is taken before row `i`
is mutated, which the functional update models exactly. -/
def Matrix.add_rows [Mul K] [Add K] (A : Matrix m n K) (i j : Nat) (a : K) : Matrix m n K :=
  ⟨fun r c => if r = i then A.data r c + A.data j c * a else A.data r c⟩

/-- Model of `Matrix::get_row` (`src/lib.rs`): a value copy of the `N` entries of
row `i`. -/
def Matrix.get_row (A : Matrix m n K) (i : Nat) : List K :=
  (List.range n).map fun c => A.data i c

instance [Mul K] [Add K] : RowOps (Matrix m n K) K where
  swap_rows := Matrix.swap_rows
  scale_row := Matrix.scale_row
  add_rows := Matrix.add_rows
  get_row := Matrix.get_row
  n_rows _ := m
  n_cols _ := n

/-- Model of `AugmentedMatrix<M, N, P, T>` (`src/augmented_matrix.rs`): an
`M`-by-`N` left part paired with an `M`-by-`P` right part. -/
structure AugmentedMatrix (m n p : Nat) (K : Type) where
  left : Matrix m n K
  right : Matrix m p K

/-- Model of `AugmentedMatrix::swap_rows`: forwarded to both parts. -/
def AugmentedMatrix.swap_rows (C : AugmentedMatrix m n p K) (i j : Nat) :
    AugmentedMatrix m n p K :=
  ⟨C.left.swap_rows i j, C.right.swap_rows i j⟩

/-- Model of `AugmentedMatrix::scale_row`: forwarded to both parts. -/
def AugmentedMatrix.scale_row [Mul K] (C : AugmentedMatrix m n p K) (i : Nat) (a : K) :
    AugmentedMatrix m n p K :=
  ⟨C.left.scale_row i a, C.right.scale_row i a⟩

/-- Model of `AugmentedMatrix::add_rows`: forwarded to both parts. -/
def AugmentedMatrix.add_rows [Mul K] [Add K] (C : AugmentedMatrix m n p K) (i j : Nat) (a : K) :
    AugmentedMatrix m n p K :=
  ⟨C.left.add_rows i j a, C.right.add_rows i j a⟩

/-- Model of `AugmentedMatrix::get_row`: reads the left part only. -/
def AugmentedMatrix.get_row (C : AugmentedMatrix m n p K) (i : Nat) : List K :=
  C.left.get_row i

instance [Mul K] [Add K] : RowOps (AugmentedMatrix m n p K) K where
  swap_rows := AugmentedMatrix.swap_rows
  scale_row := AugmentedMatrix.scale_row
  add_rows := AugmentedMatrix.add_rows
  get_row := AugmentedMatrix.get_row
  n_rows _ := m
  n_cols _ := n

/-- Model of `Matrix::swap_rows` with the panic of `self.data.swap(i, j)` on an
out-of-range index modelled as `none`. -/
def Matrix.checked_swap_rows (A : Matrix m n K) (i j : Nat) : Option (Matrix m n K) :=
  if i < m ∧ j < m then some (A.swap_rows i j) else none

/-- Model of `Matrix::scale_row` with the panic of `self.data[i]` on an
out-of-range index modelled as `none`. -/
def Matrix.checked_scale_row [Mul K] (A : Matrix m n K) (i : Nat) (a : K) :
    Option (Matrix m n K) :=
  if i < m then some (A.scale_row i a) else none

/-- Model of `Matrix::add_rows` with the panics of `self.data[j]` and
`self.data[i]` on out-of-range indices modelled as `none`. -/
def Matrix.checked_add_rows [Mul K] [Add K] (A : Matrix m n K) (i j : Nat) (a : K) :
    Option (Matrix m n K) :=
  if i < m ∧ j < m then some (A.add_rows i j a) else none

/-- Model of `Matrix::get_row` with the panic of `self.data[i]` on an
out-of-range index modelled as `none`. -/
def Matrix.checked_get_row (A : Matrix m n K) (i : Nat) : Option (List K) :=
  if i < m then some (A.get_row i) else none

section Algorithm

variable [Field K] [DecidableEq K] {α : Type} [RowOps α K]

/-- One iteration of the inner `for k in i..self.n_rows()` loop of
`RowOps::transform_to_row_echelon_form` (`src/row_operations.rs`): the
state is the object being reduced together with the `pivot_found` flag. -/
def innerStep (i j : Nat) (st : α × Bool) (k : Nat) : α × Bool :=
  if (RowOps.get_row st.1 k).getD j 0 ≠ 0 then
    if st.2 then
      let leading_entry := (RowOps.get_row st.1 k).getD j 0
      (RowOps.add_rows st.1 k i (0 - 1 * leading_entry), st.2)
    else
      let swapped := RowOps.swap_rows st.1 i k
      let pivot_value := (RowOps.get_row swapped i).getD j 0
      (RowOps.scale_row swapped i (1 / pivot_value), true)
  else st

/-- One iteration of the outer `for j in 0..self.n_cols()` loop of
`transform_to_row_echelon_form`: the state is the object being reduced
together with the pivot row counter `i`. -/
def colStep (st : α × Nat) (j : Nat) : α × Nat :=
  let res := (List.range' st.2 (RowOps.n_rows st.1 - st.2)).foldl (innerStep st.2 j) (st.1, false)
  (res.1, if res.2 then st.2 + 1 else st.2)

/-- Model of `RowOps::transform_to_row_echelon_form` (`src/row_operations.rs`),
the provided trait method, written once against the `RowOps` interface. -/
def transform_to_row_echelon_form (A : α) : α :=
  ((List.range (RowOps.n_cols A)).foldl colStep (A, 0)).1

/-- The state of the reduction after the first `t` iterations of the
column loop (matrix so far, pivot row counter). -/
def runCols (A : α) (t : Nat) : α × Nat :=
  (List.range t).foldl colStep (A, 0)

/-- State of the instrumented reduction: the object being reduced, the
pivot row counter, the number of completed column-loop iterations, and
the number of row operations (`swap_rows`, `scale_row` and `add_rows`
calls combined) issued so far. -/
structure CountState (α : Type) where
  mat : α
  piv : Nat
  iters : Nat
  opCount : Nat

/-- Variant of `innerStep` instrumented with the row-operation count: the pivot
branch issues one `swap_rows` and one `scale_row`, the elimination
branch one `add_rows`. -/
def innerStepCount (i j : Nat) (st : (α × Bool) × Nat) (k : Nat) : (α × Bool) × Nat :=
  (innerStep i j st.1 k,
    if (RowOps.get_row st.1.1 k).getD j 0 ≠ 0 then
      (if st.1.2 then st.2 + 1 else st.2 + 2)
    else st.2)

/-- Variant of `colStep` instrumented with the column-iteration and row-operation
counts. -/
def colStepCount (st : CountState α) (j : Nat) : CountState α :=
  let res := (List.range' st.piv (RowOps.n_rows st.mat - st.piv)).foldl
    (innerStepCount st.piv j) ((st.mat, false), st.opCount)
  ⟨res.1.1, if res.1.2 then st.piv + 1 else st.piv, st.iters + 1, res.2⟩

/-- The instrumented run of `transform_to_row_echelon_form`. -/
def transformCount (A : α) : CountState α :=
  (List.range (RowOps.n_cols A)).foldl colStepCount ⟨A, 0, 0, 0⟩

/-- The instrumented state after the first `t` column-loop iterations. -/
def runColsCount (A : α) (t : Nat) : CountState α :=
  (List.range t).foldl colStepCount ⟨A, 0, 0, 0⟩

end Algorithm

/-- Model of `SquareMatrix<N, T>` (`src/square_matrix.rs`). -/
abbrev SquareMatrix (n : Nat) (K : Type) := Matrix n n K

/-- Model of `SquareMatrix::trace` (`src/square_matrix.rs`): starts from
`data[0][0]` and multiplies by `data[i][i]` for `i in 1..N`. -/
def trace [Mul K] (A : SquareMatrix n K) : K :=
  (List.range' 1 (n - 1)).foldl (fun t i => t * A.data i i) (A.data 0 0)

section Rows

variable [Field K]

/-- The rows of a matrix as a family of vectors in `Fin n → K`. -/
def rowsFam (A : Matrix m n K) : Fin m → Fin n → K :=
  fun r c => A.data r c

/-- The row space of a matrix: the span of its rows. -/
def rowSpan (A : Matrix m n K) : Submodule K (Fin n → K) :=
  Submodule.span K (Set.range (rowsFam A))

/-- The first `r` rows of a matrix as a family of vectors. -/
def pivRows (A : Matrix m n K) (r : Nat) : Fin r → Fin n → K :=
  fun t c => A.data t.1 c

end Rows

/-- Row echelon form, as defined in the specification's glossary: for
some `r ≤ m` the rows below `r` are identically zero and each row
`t < r` has leading entry `1` in column `piv t`, with the leading
columns strictly increasing. -/
def IsREF [Zero K] [One K] (A : Matrix m n K) : Prop :=
  ∃ r, r ≤ m ∧ ∃ piv : Nat → Nat,
    (∀ t1 t2, t1 < t2 → t2 < r → piv t1 < piv t2) ∧
    (∀ t, t < r → piv t < n ∧ A.data t (piv t) = 1 ∧ ∀ c, c < piv t → A.data t c = 0) ∧
    (∀ u, r ≤ u → u < m → ∀ c, c < n → A.data u c = 0)

/-- Invariant of the column loop of the reduction: at the start of
column `j` with pivot row counter `i`, the rows above `i` are in echelon
shape with pivot columns `piv 0 < piv 1 < ⋯ < piv (i-1) < j`, and the
rows at or below `i` vanish on all columns before `j`. -/
structure Inv [Field K] (A : Matrix m n K) (i j : Nat) (piv : Nat → Nat) : Prop where
  hi : i ≤ m
  mono : ∀ t1 t2, t1 < t2 → t2 < i → piv t1 < piv t2
  plt : ∀ t, t < i → piv t < j
  lead : ∀ t, t < i → A.data t (piv t) = 1
  before : ∀ t, t < i → ∀ c, c < piv t → A.data t c = 0
  below : ∀ u, i ≤ u → u < m → ∀ c, c < j → A.data u c = 0

/-- A 2-by-2 diagonal matrix over `F2` with nonzero diagonal. -/
def diagExample : Matrix 2 2 F2 :=
  ⟨fun r c => if r = c then 1 else 0⟩

/-- The 2-by-3 matrix `[[0,1,0],[0,0,1]]` over `F2`: full row rank, but
its pivots are not on the leading diagonal. -/
def wideIndepExample : Matrix 2 3 F2 :=
  ⟨fun r c => if (r = 0 ∧ c = 1) ∨ (r = 1 ∧ c = 2) then 1 else 0⟩

/-- The 2-by-2 matrix `[[0,1],[1,0]]` over `F2`: square with linearly
independent rows. -/
def squareSwapExample : Matrix 2 2 F2 :=
  ⟨fun r c => if (r = 0 ∧ c = 1) ∨ (r = 1 ∧ c = 0) then 1 else 0⟩

/-- The 1-by-2 matrix `[[1,0]]` over `F2`: fewer independent rows than
columns, yet reduction leaves no zero row. -/
def singleRowExample : Matrix 1 2 F2 :=
  ⟨fun r c => if r = 0 ∧ c = 0 then 1 else 0⟩

/-- The 2-by-2 matrix `[[1,0],[1,0]]` over `F2`: linearly dependent
rows. -/
def depRowsExample : Matrix 2 2 F2 :=
  ⟨fun _ c => if c = 0 then 1 else 0⟩

/-- The 1-by-1 matrix `[[1]]` over `F2`: its reduction issues two row
operations (one swap, one scale), exceeding `n_rows * n_cols = 1`. -/
def oneByOneExample : Matrix 1 1 F2 :=
  ⟨fun _ _ => 1⟩

/-- An augmented composition over `F2` with a 2-by-2 left part and a
2-by-1 right part. -/
def augExample : AugmentedMatrix 2 2 1 F2 :=
  ⟨⟨fun r c => if r = c then 1 else 0⟩, ⟨fun r _ => if r = 0 then 1 else 0⟩⟩

/-- A 2-by-2 matrix over `F2` used to exercise `add_rows`. -/
def addRowsExample : Matrix 2 2 F2 :=
  ⟨fun r c => if r = 0 then 1 else if c = 1 then 1 else 0⟩

/-- A 2-by-2 matrix over `F2` used to exercise the checked operations. -/
def checkedExample : Matrix 2 2 F2 :=
  ⟨fun r c => if r = 0 ∧ c = 0 then 1 else 0⟩

/-- The 2-by-3 matrix `[[1,1,0],[0,0,1]]` over `F2`, already in row
echelon form. -/
def refExample : Matrix 2 3 F2 :=
  ⟨fun r c => if (r = 0 ∧ (c = 0 ∨ c = 1)) ∨ (r = 1 ∧ c = 2) then 1 else 0⟩

/-- The 3-by-3 identity over `F2`, used to exercise `trace`. -/
def traceExample : SquareMatrix 3 F2 :=
  ⟨fun r c => if r = c then 1 else 0⟩

end Malg

namespace Malg

variable {K : Type} {m n p : Nat}

theorem Matrix.ext_data {A B : Matrix m n K} (h : ∀ r c, A.data r c = B.data r c) : A = B := by
  cases A
  cases B
  simp only [Matrix.mk.injEq]
  funext r c
  exact h r c

@[simp] theorem swap_rows_data (A : Matrix m n K) (i j r c : Nat) :
    (A.swap_rows i j).data r c =
      if r = i then A.data j c else if r = j then A.data i c else A.data r c := by
  by_cases h1 : r = i <;> by_cases h2 : r = j <;> by_cases h3 : j = i <;>
    simp [Matrix.swap_rows, h1, h2, h3]

@[simp] theorem scale_row_data [Mul K] (A : Matrix m n K) (i : Nat) (a : K) (r c : Nat) :
    (A.scale_row i a).data r c = if r = i then A.data r c * a else A.data r c := rfl

@[simp] theorem add_rows_data [Mul K] [Add K] (A : Matrix m n K) (i j : Nat) (a : K) (r c : Nat) :
    (A.add_rows i j a).data r c = if r = i then A.data r c + A.data j c * a else A.data r c := rfl

theorem get_row_getElem (A : Matrix m n K) (k j : Nat) (hj : j < n) :
    (A.get_row k)[j]? = some (A.data k j) := by
  simp [Matrix.get_row, List.getElem?_range hj]

theorem get_row_getD [Zero K] (A : Matrix m n K) (k j : Nat) (hj : j < n) :
    (A.get_row k).getD j 0 = A.data k j := by
  simp [List.getD_eq_getElem?_getD, get_row_getElem A k j hj]

@[simp] theorem rowOps_swap_rows_matrix [Mul K] [Add K] (A : Matrix m n K) (i j : Nat) :
    RowOps.swap_rows A i j = A.swap_rows i j := rfl

@[simp] theorem rowOps_scale_row_matrix [Mul K] [Add K] (A : Matrix m n K) (i : Nat) (a : K) :
    RowOps.scale_row A i a = A.scale_row i a := rfl

@[simp] theorem rowOps_add_rows_matrix [Mul K] [Add K] (A : Matrix m n K) (i j : Nat) (a : K) :
    RowOps.add_rows A i j a = A.add_rows i j a := rfl

@[simp] theorem rowOps_get_row_matrix [Mul K] [Add K] (A : Matrix m n K) (i : Nat) :
    RowOps.get_row A i = A.get_row i := rfl

@[simp] theorem rowOps_n_rows_matrix [Mul K] [Add K] (A : Matrix m n K) :
    RowOps.n_rows A = m := rfl

@[simp] theorem rowOps_n_cols_matrix [Mul K] [Add K] (A : Matrix m n K) :
    RowOps.n_cols A = n := rfl

section AlgebraLemmas

variable [Field K] [DecidableEq K]

theorem innerStep_zero {A : Matrix m n K} {i j k : Nat} {pf : Bool}
    (hj : j < n) (hz : A.data k j = 0) : innerStep i j (A, pf) k = (A, pf) := by
  simp [innerStep, get_row_getElem A k j hj, hz]

theorem innerStep_elim {A : Matrix m n K} {i j k : Nat}
    (hj : j < n) (hnz : A.data k j ≠ 0) :
    innerStep i j (A, true) k = (A.add_rows k i (0 - 1 * A.data k j), true) := by
  simp [innerStep, get_row_getElem A k j hj, hnz]

theorem innerStep_pivot {A : Matrix m n K} {i j k : Nat}
    (hj : j < n) (hnz : A.data k j ≠ 0) :
    innerStep i j (A, false) k =
      ((A.swap_rows i k).scale_row i (1 / A.data k j), true) := by
  have hswap : (A.swap_rows i k).data i j = A.data k j := by simp
  simp [innerStep, get_row_getElem A k j hj, get_row_getElem (A.swap_rows i k) i j hj, hnz,
    hswap]

theorem foldl_innerStep_zero {i j : Nat} (hj : j < n) :
    ∀ (l : List Nat) (A : Matrix m n K) (pf : Bool), (∀ k ∈ l, A.data k j = 0) →
      l.foldl (innerStep i j) (A, pf) = (A, pf) := by
  intro l
  induction l with
  | nil => intro A pf _; rfl
  | cons x xs ih =>
      intro A pf hz
      have hx : A.data x j = 0 := hz x (List.mem_cons_self x xs)
      rw [List.foldl_cons, innerStep_zero hj hx]
      exact ih A pf fun k hk => hz k (List.mem_cons_of_mem x hk)

theorem foldl_innerStep_elim (i : Nat) {j : Nat} (hj : j < n) :
    ∀ (l : List Nat) (C : Matrix m n K), (∀ x ∈ l, i < x) → l.Nodup →
      (l.foldl (innerStep i j) (C, true)).2 = true ∧
      ∀ r c, (l.foldl (innerStep i j) (C, true)).1.data r c =
        if r ∈ l ∧ C.data r j ≠ 0 then C.data r c + C.data i c * (0 - 1 * C.data r j)
        else C.data r c := by
  intro l
  induction l with
  | nil =>
      intro C _ _
      refine ⟨rfl, fun r c => ?_⟩
      simp
  | cons x xs ih =>
      intro C hlt hnd
      have hxi : i < x := hlt x (List.mem_cons_self x xs)
      have hxs : x ∉ xs := (List.nodup_cons.mp hnd).1
      have hnd' : xs.Nodup := (List.nodup_cons.mp hnd).2
      have hlt' : ∀ y ∈ xs, i < y := fun y hy => hlt y (List.mem_cons_of_mem x hy)
      by_cases hx : C.data x j = 0
      · rw [List.foldl_cons, innerStep_zero hj hx]
        obtain ⟨h2, hdata⟩ := ih C hlt' hnd'
        refine ⟨h2, fun r c => ?_⟩
        rw [hdata r c]
        by_cases hrx : r = x
        · subst hrx
          simp [hxs, hx]
        · simp [List.mem_cons, hrx]
      · rw [List.foldl_cons, innerStep_elim hj hx]
        set C' := C.add_rows x i (0 - 1 * C.data x j) with hC'
        have hC'i : ∀ c, C'.data i c = C.data i c := by
          intro c; simp [hC', Nat.ne_of_lt hxi]
        have hC'r : ∀ r, r ≠ x → ∀ c, C'.data r c = C.data r c := by
          intro r hr c; simp [hC', hr]
        have hC'x : ∀ c, C'.data x c = C.data x c + C.data i c * (0 - 1 * C.data x j) := by
          intro c; simp [hC']
        obtain ⟨h2, hdata⟩ := ih C' hlt' hnd'
        refine ⟨h2, fun r c => ?_⟩
        rw [hdata r c]
        by_cases hrx : r = x
        · subst hrx
          simp only [hxs, false_and, if_false, List.mem_cons, true_or, true_and]
          rw [hC'x c, if_pos hx]
        · rw [hC'r r hrx j, hC'r r hrx c, hC'i c]
          simp only [List.mem_cons, hrx, false_or]

end AlgebraLemmas

end Malg

namespace Malg

variable {K : Type} {m n : Nat}

section ColStep

variable [Field K] [DecidableEq K]

theorem colStep_matrix (A : Matrix m n K) (i j : Nat) :
    colStep (A, i) j =
      (((List.range' i (m - i)).foldl (innerStep i j) (A, false)).1,
        if ((List.range' i (m - i)).foldl (innerStep i j) (A, false)).2 then i + 1 else i) := rfl

theorem colStep_noPivot {A : Matrix m n K} {i j : Nat} (hj : j < n)
    (hz : ∀ k, i ≤ k → k < m → A.data k j = 0) : colStep (A, i) j = (A, i) := by
  have hmem : ∀ k ∈ List.range' i (m - i), A.data k j = 0 := by
    intro k hk
    rw [List.mem_range'_1] at hk
    exact hz k hk.1 (by omega)
  rw [colStep_matrix, foldl_innerStep_zero hj (List.range' i (m - i)) A false hmem]
  simp

theorem colStep_pivot {A : Matrix m n K} {i j k0 : Nat} (hj : j < n) (hik : i ≤ k0)
    (hk0 : k0 < m) (hnz : A.data k0 j ≠ 0)
    (hfirst : ∀ k, i ≤ k → k < k0 → A.data k j = 0) :
    (colStep (A, i) j).2 = i + 1 ∧
    ∀ r c, (colStep (A, i) j).1.data r c =
      if r = i then A.data k0 c * (1 / A.data k0 j)
      else if r = k0 then A.data i c
      else if k0 < r ∧ r < m ∧ A.data r j ≠ 0 then
        A.data r c + A.data k0 c * (1 / A.data k0 j) * (0 - 1 * A.data r j)
      else A.data r c := by
  have hsplit : List.range' i (m - i) =
      List.range' i (k0 - i) ++ k0 :: List.range' (k0 + 1) (m - k0 - 1) := by
    have h1 : m - i = ((m - k0 - 1) + 1) + (k0 - i) := by omega
    rw [h1, ← List.range'_append_1 i (k0 - i) ((m - k0 - 1) + 1)]
    have h2 : i + (k0 - i) = k0 := by omega
    rw [h2, List.range'_succ]
  have hphase1 : (List.range' i (k0 - i)).foldl (innerStep i j) (A, false) = (A, false) := by
    apply foldl_innerStep_zero hj
    intro k hk
    rw [List.mem_range'_1] at hk
    exact hfirst k hk.1 (by omega)
  have hA2r : ∀ r c, ((A.swap_rows i k0).scale_row i (1 / A.data k0 j)).data r c =
      if r = i then A.data k0 c * (1 / A.data k0 j)
      else if r = k0 then A.data i c else A.data r c := by
    intro r c
    by_cases h1 : r = i
    · subst h1; simp
    · by_cases h2 : r = k0
      · have hki : ¬k0 = i := fun h => h1 (by rw [h2, h])
        simp [h1, h2, hki]
      · simp [h1, h2]
  obtain ⟨hpf, hdata⟩ := foldl_innerStep_elim i hj (List.range' (k0 + 1) (m - k0 - 1))
    ((A.swap_rows i k0).scale_row i (1 / A.data k0 j))
    (by intro x hx; rw [List.mem_range'_1] at hx; omega)
    (List.nodup_range' _ _)
  rw [colStep_matrix, hsplit, List.foldl_append, hphase1, List.foldl_cons,
    innerStep_pivot hj hnz]
  refine ⟨by rw [hpf]; rfl, fun r c => ?_⟩
  show (_ : Matrix m n K × Bool).1.data r c = _
  rw [hdata r c]
  by_cases h1 : r = i
  · have hnotmem : r ∉ List.range' (k0 + 1) (m - k0 - 1) := by
      rw [List.mem_range'_1]; omega
    rw [if_neg (by intro hc; exact hnotmem hc.1), hA2r]
    simp [h1]
  · by_cases h2 : r = k0
    · have hnotmem : r ∉ List.range' (k0 + 1) (m - k0 - 1) := by
        rw [List.mem_range'_1]; omega
      rw [if_neg (by intro hc; exact hnotmem hc.1), hA2r]
      simp [h1, h2]
    · have har : ∀ c', ((A.swap_rows i k0).scale_row i (1 / A.data k0 j)).data r c' =
          A.data r c' := by
        intro c'
        rw [hA2r r c', if_neg h1, if_neg h2]
      by_cases h3 : k0 < r ∧ r < m ∧ A.data r j ≠ 0
      · have hmem : r ∈ List.range' (k0 + 1) (m - k0 - 1) := by
          rw [List.mem_range'_1]; omega
        rw [if_pos ⟨hmem, by rw [har j]; exact h3.2.2⟩, if_neg h1, if_neg h2, if_pos h3,
          har c, har j, hA2r i c, if_pos rfl]
      · have hneg : ¬(r ∈ List.range' (k0 + 1) (m - k0 - 1) ∧
            ((A.swap_rows i k0).scale_row i (1 / A.data k0 j)).data r j ≠ 0) := by
          intro hc
          apply h3
          have hm := hc.1
          rw [List.mem_range'_1] at hm
          refine ⟨by omega, by omega, ?_⟩
          have := hc.2
          rwa [har j] at this
        rw [if_neg hneg, if_neg h1, if_neg h2, if_neg h3, har c]

theorem colStep_snd (A : Matrix m n K) (i j : Nat) :
    (colStep (A, i) j).2 = i ∨ (colStep (A, i) j).2 = i + 1 := by
  rw [colStep_matrix]
  by_cases hb : ((List.range' i (m - i)).foldl (innerStep i j) (A, false)).2 = true
  · right; simp [hb]
  · left; simp [hb]

theorem colStep_snd_le {A : Matrix m n K} {i : Nat} (j : Nat) (h : i ≤ m) :
    (colStep (A, i) j).2 ≤ m := by
  by_cases him : i = m
  · subst him
    rw [colStep_matrix]
    simp [Nat.sub_self]
  · rcases colStep_snd A i j with h2 | h2 <;> omega

theorem runCols_succ {α : Type} [RowOps α K] (A : α) (t : Nat) :
    runCols A (t + 1) = colStep (runCols A t) t := by
  unfold runCols
  rw [List.range_succ, List.foldl_append]
  rfl

theorem transform_eq_runCols (A : Matrix m n K) :
    transform_to_row_echelon_form A = (runCols A n).1 := rfl

end ColStep

end Malg

namespace Malg

variable {K : Type} {m n : Nat}

section Span

variable [Field K]

theorem rowSpan_swap (A : Matrix m n K) {i k : Nat} (hi : i < m) (hk : k < m) :
    rowSpan (A.swap_rows i k) = rowSpan A := by
  unfold rowSpan
  congr 1
  apply Set.Subset.antisymm
  · rintro x ⟨r, rfl⟩
    by_cases h1 : r.1 = i
    · exact ⟨⟨k, hk⟩, by funext c; simp [rowsFam, h1]⟩
    · by_cases h2 : r.1 = k
      · refine ⟨⟨i, hi⟩, ?_⟩
        funext c
        by_cases hki : k = i <;> simp [rowsFam, hki, h1, h2]
      · exact ⟨r, by funext c; simp [rowsFam, h1, h2]⟩
  · rintro x ⟨r, rfl⟩
    by_cases h1 : r.1 = i
    · refine ⟨⟨k, hk⟩, ?_⟩
      funext c
      by_cases hki : k = i <;> simp [rowsFam, hki, h1]
    · by_cases h2 : r.1 = k
      · refine ⟨⟨i, hi⟩, ?_⟩
        funext c
        by_cases hik : i = k <;> simp [rowsFam, hik, h1, h2]
      · exact ⟨r, by funext c; simp [rowsFam, h1, h2]⟩

theorem rowSpan_scale (A : Matrix m n K) {i : Nat} {a : K} (ha : a ≠ 0) :
    rowSpan (A.scale_row i a) = rowSpan A := by
  unfold rowSpan
  apply Submodule.span_eq_span
  · rintro x ⟨r, rfl⟩
    by_cases h1 : r.1 = i
    · have hx : rowsFam (A.scale_row i a) r = a • rowsFam A r := by
        funext c
        simp [rowsFam, h1, mul_comm]
      rw [hx]
      exact Submodule.smul_mem _ a (Submodule.subset_span ⟨r, rfl⟩)
    · have hx : rowsFam (A.scale_row i a) r = rowsFam A r := by
        funext c
        simp [rowsFam, h1]
      rw [hx]
      exact Submodule.subset_span ⟨r, rfl⟩
  · rintro x ⟨r, rfl⟩
    by_cases h1 : r.1 = i
    · have hx : rowsFam A r = a⁻¹ • rowsFam (A.scale_row i a) r := by
        funext c
        simp only [rowsFam, Pi.smul_apply, smul_eq_mul, scale_row_data, h1, if_pos]
        field_simp
      rw [hx]
      exact Submodule.smul_mem _ _ (Submodule.subset_span ⟨r, rfl⟩)
    · have hx : rowsFam A r = rowsFam (A.scale_row i a) r := by
        funext c
        simp [rowsFam, h1]
      rw [hx]
      exact Submodule.subset_span ⟨r, rfl⟩

theorem rowSpan_add_rows (A : Matrix m n K) {i k : Nat} (hi : i < m) (hk : k < m)
    (hki : k ≠ i) (a : K) : rowSpan (A.add_rows k i a) = rowSpan A := by
  unfold rowSpan
  apply Submodule.span_eq_span
  · rintro x ⟨r, rfl⟩
    by_cases h1 : r.1 = k
    · have hx : rowsFam (A.add_rows k i a) r =
          rowsFam A r + a • rowsFam A ⟨i, hi⟩ := by
        funext c
        simp [rowsFam, h1, mul_comm]
      rw [hx]
      exact Submodule.add_mem _ (Submodule.subset_span ⟨r, rfl⟩)
        (Submodule.smul_mem _ a (Submodule.subset_span ⟨⟨i, hi⟩, rfl⟩))
    · have hx : rowsFam (A.add_rows k i a) r = rowsFam A r := by
        funext c
        simp [rowsFam, h1]
      rw [hx]
      exact Submodule.subset_span ⟨r, rfl⟩
  · rintro x ⟨r, rfl⟩
    by_cases h1 : r.1 = k
    · have hx : rowsFam A r =
          rowsFam (A.add_rows k i a) r - a • rowsFam (A.add_rows k i a) ⟨i, hi⟩ := by
        funext c
        have hik : ¬(i = k) := fun h => hki h.symm
        simp [rowsFam, h1, hik]
        ring
      rw [hx]
      exact Submodule.sub_mem _ (Submodule.subset_span ⟨r, rfl⟩)
        (Submodule.smul_mem _ a (Submodule.subset_span ⟨⟨i, hi⟩, rfl⟩))
    · have hx : rowsFam A r = rowsFam (A.add_rows k i a) r := by
        funext c
        simp [rowsFam, h1]
      rw [hx]
      exact Submodule.subset_span ⟨r, rfl⟩

variable [DecidableEq K]

theorem rowSpan_foldl_elim {i j : Nat} (hj : j < n) :
    ∀ l : List Nat, (∀ x ∈ l, i < x ∧ x < m) → i < m → ∀ C : Matrix m n K,
      rowSpan ((l.foldl (innerStep i j) (C, true)).1) = rowSpan C := by
  intro l
  induction l with
  | nil => intro _ _ C; rfl
  | cons x xs ih =>
      intro hmem hi C
      have hx := hmem x (List.mem_cons_self x xs)
      have hmem' : ∀ y ∈ xs, i < y ∧ y < m := fun y hy => hmem y (List.mem_cons_of_mem x hy)
      rw [List.foldl_cons]
      by_cases hz : C.data x j = 0
      · rw [innerStep_zero hj hz]
        exact ih hmem' hi C
      · rw [innerStep_elim hj hz, ih hmem' hi _]
        exact rowSpan_add_rows C hi hx.2 (Nat.ne_of_gt hx.1) _

theorem rowSpan_foldl_scan {i j : Nat} (hj : j < n) :
    ∀ l : List Nat, (∀ x ∈ l, i ≤ x ∧ x < m) → l.Pairwise (· < ·) → ∀ C : Matrix m n K,
      rowSpan ((l.foldl (innerStep i j) (C, false)).1) = rowSpan C := by
  intro l
  induction l with
  | nil => intro _ _ C; rfl
  | cons x xs ih =>
      intro hmem hpw C
      have hx := hmem x (List.mem_cons_self x xs)
      have hpw' := List.pairwise_cons.mp hpw
      rw [List.foldl_cons]
      by_cases hz : C.data x j = 0
      · rw [innerStep_zero hj hz]
        exact ih (fun y hy => hmem y (List.mem_cons_of_mem x hy)) hpw'.2 C
      · rw [innerStep_pivot hj hz]
        have hi : i < m := lt_of_le_of_lt hx.1 hx.2
        rw [rowSpan_foldl_elim hj xs
          (fun y hy => ⟨lt_of_le_of_lt hx.1 (hpw'.1 y hy), (hmem y (List.mem_cons_of_mem x hy)).2⟩)
          hi]
        rw [rowSpan_scale _ (one_div_ne_zero hz), rowSpan_swap _ hi hx.2]

theorem rowSpan_colStep (A : Matrix m n K) (i : Nat) {j : Nat} (hj : j < n) :
    rowSpan ((colStep (A, i) j).1) = rowSpan A := by
  rw [colStep_matrix]
  apply rowSpan_foldl_scan hj
  · intro x hx
    rw [List.mem_range'_1] at hx
    exact ⟨hx.1, by omega⟩
  · exact List.pairwise_lt_range' i (m - i)

theorem rowSpan_runCols (A : Matrix m n K) : ∀ t, t ≤ n →
    rowSpan ((runCols A t).1) = rowSpan A := by
  intro t
  induction t with
  | zero => intro _; rfl
  | succ t ih =>
      intro ht
      rw [runCols_succ]
      have hjt : t < n := ht
      have h1 := rowSpan_colStep (runCols A t).1 (runCols A t).2 hjt
      have h2 : ((runCols A t).1, (runCols A t).2) = runCols A t := rfl
      rw [h2] at h1
      rw [h1]
      exact ih (Nat.le_of_succ_le ht)

end Span

end Malg

namespace Malg

variable {K : Type} {m n : Nat}

section Invariant

variable [Field K] [DecidableEq K]

theorem inv_colStep {A : Matrix m n K} {i j : Nat} {piv : Nat → Nat}
    (hInv : Inv A i j piv) (hj : j < n) :
    ∃ piv' : Nat → Nat, Inv (colStep (A, i) j).1 (colStep (A, i) j).2 (j + 1) piv' := by
  by_cases hz : ∀ k, i ≤ k → k < m → A.data k j = 0
  · rw [colStep_noPivot hj hz]
    refine ⟨piv, ?_⟩
    exact
      { hi := hInv.hi
        mono := hInv.mono
        plt := fun t ht => Nat.lt_succ_of_lt (hInv.plt t ht)
        lead := hInv.lead
        before := hInv.before
        below := fun u hu hum c hc => by
          rcases Nat.lt_succ_iff_lt_or_eq.mp hc with h | h
          · exact hInv.below u hu hum c h
          · subst h; exact hz u hu hum }
  · push_neg at hz
    obtain ⟨k, hik, hkm, hknz⟩ := hz
    have hex : ∃ k0, i ≤ k0 ∧ k0 < m ∧ A.data k0 j ≠ 0 := ⟨k, hik, hkm, hknz⟩
    have hP := Nat.find_spec hex
    set k0 := Nat.find hex with hk0def
    have hfirst : ∀ k', i ≤ k' → k' < k0 → A.data k' j = 0 := by
      intro k' hik' hk'
      by_contra hne
      exact Nat.find_min hex hk' ⟨hik', by omega, hne⟩
    obtain ⟨hsnd, hdata⟩ := colStep_pivot hj hP.1 hP.2.1 hP.2.2 hfirst
    have him : i < m := by omega
    refine ⟨fun t => if t = i then j else piv t, ?_⟩
    rw [hsnd]
    have hrow_lt_i : ∀ t, t < i → ∀ c, (colStep (A, i) j).1.data t c = A.data t c := by
      intro t ht c
      rw [hdata t c, if_neg (by omega), if_neg (by omega), if_neg (by intro hcon; omega)]
    refine
      { hi := by omega
        mono := ?_
        plt := ?_
        lead := ?_
        before := ?_
        below := ?_ }
    · intro t1 t2 h12 h2i
      by_cases ht2 : t2 = i
      · subst ht2
        rw [if_neg (by omega), if_pos rfl]
        exact hInv.plt t1 (by omega)
      · rw [if_neg (by omega), if_neg ht2]
        exact hInv.mono t1 t2 h12 (by omega)
    · intro t ht
      by_cases hti : t = i
      · rw [if_pos hti]; omega
      · rw [if_neg hti]
        have := hInv.plt t (by omega)
        omega
    · intro t ht
      by_cases hti : t = i
      · subst hti
        rw [if_pos rfl, hdata t j, if_pos rfl]
        exact mul_one_div_cancel hP.2.2
      · rw [if_neg hti, hrow_lt_i t (by omega)]
        exact hInv.lead t (by omega)
    · intro t ht c hc
      by_cases hti : t = i
      · subst hti
        rw [if_pos rfl] at hc
        rw [hdata t c, if_pos rfl, hInv.below k0 hP.1 hP.2.1 c hc, zero_mul]
      · rw [if_neg hti] at hc
        rw [hrow_lt_i t (by omega)]
        exact hInv.before t (by omega) c hc
    · intro u hu hum c hc
      have hui : ¬(u = i) := by omega
      have hcases : c < j ∨ c = j := by omega
      rw [hdata u c, if_neg hui]
      by_cases huk : u = k0
      · subst huk
        rw [if_pos rfl]
        rcases hcases with h | h
        · exact hInv.below i le_rfl him c h
        · subst h
          exact hfirst i le_rfl (by omega)
      · rw [if_neg huk]
        by_cases hcond : k0 < u ∧ u < m ∧ A.data u j ≠ 0
        · rw [if_pos hcond]
          rcases hcases with h | h
          · rw [hInv.below u (by omega) hum c h, hInv.below k0 hP.1 hP.2.1 c h]
            ring
          · subst h
            rw [mul_one_div_cancel hP.2.2]
            ring
        · rw [if_neg hcond]
          rcases hcases with h | h
          · exact hInv.below u (by omega) hum c h
          · subst h
            by_cases hlt : u < k0
            · exact hfirst u (by omega) hlt
            · have hgt : k0 < u := by omega
              by_contra hne
              exact hcond ⟨hgt, hum, hne⟩

theorem runCols_inv (A : Matrix m n K) : ∀ t, t ≤ n →
    ∃ piv, Inv (runCols A t).1 (runCols A t).2 t piv := by
  intro t
  induction t with
  | zero =>
      intro _
      refine ⟨fun _ => 0, ?_⟩
      exact
        { hi := Nat.zero_le m
          mono := fun t1 t2 _ h2 => absurd h2 (Nat.not_lt_zero _)
          plt := fun t ht => absurd ht (Nat.not_lt_zero _)
          lead := fun t ht => absurd ht (Nat.not_lt_zero _)
          before := fun t ht => absurd ht (Nat.not_lt_zero _)
          below := fun u _ _ c hc => absurd hc (Nat.not_lt_zero _) }
  | succ t ih =>
      intro ht
      obtain ⟨piv, hInv⟩ := ih (Nat.le_of_succ_le ht)
      have hjt : t < n := ht
      rw [runCols_succ]
      obtain ⟨piv', hInv'⟩ := inv_colStep hInv hjt
      have h2 : ((runCols A t).1, (runCols A t).2) = runCols A t := rfl
      rw [h2] at hInv'
      exact ⟨piv', hInv'⟩

end Invariant

end Malg

namespace Malg

variable {K : Type} {m n : Nat}

section Rank

variable [Field K] [DecidableEq K]

theorem pivRows_linearIndependent {B : Matrix m n K} {r : Nat} {piv : Nat → Nat}
    (hInv : Inv B r n piv) : LinearIndependent K (pivRows B r) := by
  rw [Fintype.linearIndependent_iff]
  intro g hg
  suffices h : ∀ N, ∀ t : Fin r, t.1 = N → g t = 0 by
    intro t
    exact h t.1 t rfl
  intro N
  induction N using Nat.strong_induction_on with
  | _ N ih =>
      intro t ht
      have hcol : piv t.1 < n := hInv.plt t.1 t.2
      have happ := congrFun hg ⟨piv t.1, hcol⟩
      rw [Finset.sum_apply] at happ
      simp only [Pi.smul_apply, smul_eq_mul, Pi.zero_apply] at happ
      have hsingle : ∀ b ∈ Finset.univ, b ≠ t →
          g b * pivRows B r b ⟨piv t.1, hcol⟩ = 0 := by
        intro b _ hbt
        rcases Nat.lt_trichotomy b.1 t.1 with hlt | heq | hgt
        · rw [ih b.1 (by omega) b rfl, zero_mul]
        · exact absurd (Fin.ext heq) hbt
        · have hpp : piv t.1 < piv b.1 := hInv.mono t.1 b.1 hgt b.2
          have : pivRows B r b ⟨piv t.1, hcol⟩ = 0 :=
            hInv.before b.1 b.2 (piv t.1) hpp
          rw [this, mul_zero]
      rw [Finset.sum_eq_single t hsingle (fun h => absurd (Finset.mem_univ t) h)] at happ
      have hlead : pivRows B r t ⟨piv t.1, hcol⟩ = 1 := hInv.lead t.1 t.2
      rw [hlead, mul_one] at happ
      exact happ

theorem rowSpan_eq_span_pivRows {B : Matrix m n K} {r : Nat} {piv : Nat → Nat}
    (hInv : Inv B r n piv) :
    rowSpan B = Submodule.span K (Set.range (pivRows B r)) := by
  unfold rowSpan
  apply Submodule.span_eq_span
  · rintro x ⟨s, rfl⟩
    by_cases hs : s.1 < r
    · exact Submodule.subset_span ⟨⟨s.1, hs⟩, rfl⟩
    · have hzero : rowsFam B s = 0 := by
        funext c
        exact hInv.below s.1 (Nat.le_of_not_lt hs) s.2 c.1 c.2
      rw [hzero]
      exact Submodule.zero_mem _
  · rintro x ⟨t, rfl⟩
    exact Submodule.subset_span ⟨⟨t.1, lt_of_lt_of_le t.2 hInv.hi⟩, rfl⟩

theorem finrank_rowSpan_of_inv {B : Matrix m n K} {r : Nat} {piv : Nat → Nat}
    (hInv : Inv B r n piv) : Module.finrank K ↥(rowSpan B) = r := by
  rw [rowSpan_eq_span_pivRows hInv]
  have h1 : Module.finrank K ↥(Submodule.span K (Set.range (pivRows B r))) =
      Fintype.card (Fin r) := finrank_span_eq_card (pivRows_linearIndependent hInv)
  rw [Fintype.card_fin] at h1
  exact h1

theorem finrank_rowSpan_runCols (A : Matrix m n K) :
    Module.finrank K (rowSpan A) = (runCols A n).2 := by
  obtain ⟨piv, hInv⟩ := runCols_inv A n le_rfl
  have hAB := rowSpan_runCols A n le_rfl
  rw [← hAB]
  exact finrank_rowSpan_of_inv hInv

theorem linearIndependent_rows_iff (A : Matrix m n K) :
    LinearIndependent K (rowsFam A) ↔ (runCols A n).2 = m := by
  constructor
  · intro h
    have h1 := finrank_rowSpan_runCols A
    have h2 : Module.finrank K (rowSpan A) = m := by
      unfold rowSpan
      rw [finrank_span_eq_card h]
      simp
    omega
  · intro h
    rw [linearIndependent_iff_card_eq_finrank_span]
    have h1 := finrank_rowSpan_runCols A
    rw [h] at h1
    unfold rowSpan at h1
    simp only [Set.finrank]
    rw [h1]
    simp

end Rank

end Malg

namespace Malg

variable {K : Type} {m n : Nat}

section DiagonalRun

variable [Field K] [DecidableEq K]

theorem runCols_diagonal {N : Nat} (A : Matrix N N K)
    (hd : ∀ r, r < N → ∀ c, c < N → r ≠ c → A.data r c = 0)
    (hz : ∀ r, r < N → A.data r r ≠ 0) :
    ∀ t, t ≤ N → runCols A t =
      (⟨fun r c => if r < t then A.data r c * (1 / A.data r r) else A.data r c⟩, t) := by
  intro t
  induction t with
  | zero =>
      intro _
      have hD : (⟨fun r c => if r < 0 then A.data r c * (1 / A.data r r) else A.data r c⟩ :
          Matrix N N K) = A := Matrix.ext_data (fun r c => by simp)
      rw [hD]
      rfl
  | succ t ih =>
      intro ht
      rw [runCols_succ, ih (by omega)]
      have htN : t < N := ht
      have hDt : ∀ c, (⟨fun r c => if r < t then A.data r c * (1 / A.data r r)
          else A.data r c⟩ : Matrix N N K).data t c = A.data t c := by
        intro c
        simp
      have hnz : (⟨fun r c => if r < t then A.data r c * (1 / A.data r r)
          else A.data r c⟩ : Matrix N N K).data t t ≠ 0 := by
        rw [hDt t]
        exact hz t htN
      obtain ⟨hsnd, hdata⟩ := colStep_pivot htN (le_refl t) htN hnz
        (fun k hk1 hk2 => absurd hk1 (by omega))
      have hfst : (colStep ((⟨fun r c => if r < t then A.data r c * (1 / A.data r r)
          else A.data r c⟩ : Matrix N N K), t) t).1 =
          ⟨fun r c => if r < t + 1 then A.data r c * (1 / A.data r r) else A.data r c⟩ := by
        apply Matrix.ext_data
        intro u c
        rw [hdata u c]
        by_cases hu1 : u = t
        · subst hu1
          rw [if_pos rfl, hDt, hDt]
          simp [Nat.lt_succ_self]
        · rw [if_neg hu1, if_neg hu1]
          have hcond : ¬(t < u ∧ u < N ∧
              (⟨fun r c => if r < t then A.data r c * (1 / A.data r r)
                else A.data r c⟩ : Matrix N N K).data u t ≠ 0) := by
            intro hcon
            apply hcon.2.2
            have hnotlt : ¬(u < t) := by omega
            simp only [hnotlt, if_false]
            exact hd u hcon.2.1 t htN (by omega)
          rw [if_neg hcond]
          by_cases hu2 : u < t
          · simp [hu2, (show u < t + 1 by omega)]
          · have hnotlt1 : ¬(u < t + 1) := by omega
            simp [hu2, hnotlt1]
      calc colStep ((⟨fun r c => if r < t then A.data r c * (1 / A.data r r)
            else A.data r c⟩ : Matrix N N K), t) t
          = ((colStep ((⟨fun r c => if r < t then A.data r c * (1 / A.data r r)
              else A.data r c⟩ : Matrix N N K), t) t).1,
             (colStep ((⟨fun r c => if r < t then A.data r c * (1 / A.data r r)
              else A.data r c⟩ : Matrix N N K), t) t).2) := rfl
        _ = (⟨fun r c => if r < t + 1 then A.data r c * (1 / A.data r r) else A.data r c⟩,
             t + 1) := by rw [hfst, hsnd]

theorem transform_diagonal {N : Nat} (A : Matrix N N K)
    (hd : ∀ r, r < N → ∀ c, c < N → r ≠ c → A.data r c = 0)
    (hz : ∀ r, r < N → A.data r r ≠ 0) :
    ∀ r, r < N → ∀ c, c < N →
      (transform_to_row_echelon_form A).data r c = if r = c then 1 else 0 := by
  intro r hr c hc
  rw [transform_eq_runCols, runCols_diagonal A hd hz N le_rfl]
  simp only [hr, if_pos]
  by_cases hrc : r = c
  · subst hrc
    rw [if_pos rfl]
    exact mul_one_div_cancel (hz r hr)
  · rw [if_neg hrc, hd r hr c hc hrc, zero_mul]

end DiagonalRun

section REFRun

variable [Field K] [DecidableEq K]

theorem runCols_isREF {A : Matrix m n K} {r : Nat} {piv : Nat → Nat}
    (hr : r ≤ m)
    (hmono : ∀ t1 t2, t1 < t2 → t2 < r → piv t1 < piv t2)
    (hpiv : ∀ t, t < r → piv t < n ∧ A.data t (piv t) = 1 ∧ ∀ c, c < piv t → A.data t c = 0)
    (hzero : ∀ u, r ≤ u → u < m → ∀ c, c < n → A.data u c = 0) :
    ∀ t, t ≤ n → ∃ i, runCols A t = (A, i) ∧ i ≤ r ∧
      (∀ t', t' < i → piv t' < t) ∧ (i < r → t ≤ piv i) := by
  intro t
  induction t with
  | zero =>
      intro _
      exact ⟨0, rfl, Nat.zero_le r, fun t' ht' => absurd ht' (Nat.not_lt_zero _),
        fun _ => Nat.zero_le _⟩
  | succ t ih =>
      intro ht
      obtain ⟨i, hrun, hir, hplt, hnext⟩ := ih (by omega)
      have htn : t < n := ht
      rw [runCols_succ, hrun]
      by_cases hcase : i < r ∧ piv i = t
      · obtain ⟨hi_r, hpivi⟩ := hcase
        have him : i < m := by omega
        have h1 : A.data i t ≠ 0 := by
          rw [← hpivi, (hpiv i hi_r).2.1]
          exact one_ne_zero
        obtain ⟨hsnd, hdata⟩ := colStep_pivot htn (le_refl i) him h1
          (fun k hk1 hk2 => absurd hk1 (by omega))
        refine ⟨i + 1, ?_, by omega, ?_, ?_⟩
        · calc colStep (A, i) t = ((colStep (A, i) t).1, (colStep (A, i) t).2) := rfl
            _ = (A, i + 1) := by
              rw [hsnd]
              have hfst : (colStep (A, i) t).1 = A := by
                apply Matrix.ext_data
                intro u c
                rw [hdata u c]
                by_cases hu1 : u = i
                · subst hu1
                  rw [if_pos rfl, ← hpivi, (hpiv u hi_r).2.1, div_one, mul_one]
                · rw [if_neg hu1, if_neg hu1]
                  have hcond : ¬(i < u ∧ u < m ∧ A.data u t ≠ 0) := by
                    intro hcon
                    apply hcon.2.2
                    by_cases hur : u < r
                    · have hpp : piv i < piv u := hmono i u hcon.1 hur
                      exact (hpiv u hur).2.2 t (by omega)
                    · exact hzero u (by omega) hcon.2.1 t htn
                  rw [if_neg hcond]
              rw [hfst]
        · intro t' ht'
          by_cases ht'i : t' = i
          · subst ht'i
            omega
          · have := hplt t' (by omega)
            omega
        · intro hi1r
          have := hmono i (i + 1) (by omega) hi1r
          omega
      · have hzcol : ∀ k, i ≤ k → k < m → A.data k t = 0 := by
          intro k hk1 hk2
          by_cases hkr : k < r
          · have hikr : i < r := by omega
            have hti : t ≤ piv i := hnext hikr
            have hne : piv i ≠ t := fun he => hcase ⟨hikr, he⟩
            by_cases hki : k = i
            · subst hki
              exact (hpiv k hkr).2.2 t (by omega)
            · have hpp : piv i < piv k := hmono i k (by omega) hkr
              exact (hpiv k hkr).2.2 t (by omega)
          · exact hzero k (by omega) hk2 t htn
        rw [colStep_noPivot htn hzcol]
        refine ⟨i, rfl, hir, fun t' ht' => Nat.lt_succ_of_lt (hplt t' ht'), fun hi_r => ?_⟩
        have hti := hnext hi_r
        have hne : piv i ≠ t := fun he => hcase ⟨hi_r, he⟩
        omega

theorem transform_of_isREF {A : Matrix m n K} (h : IsREF A) :
    transform_to_row_echelon_form A = A := by
  obtain ⟨r, hr, piv, hmono, hpiv, hzero⟩ := h
  obtain ⟨i, hrun, _⟩ := runCols_isREF hr hmono hpiv hzero n le_rfl
  rw [transform_eq_runCols, hrun]

end REFRun

end Malg

namespace Malg

variable {K : Type} {m n : Nat}

section Counting

variable [Field K] [DecidableEq K]

theorem foldl_innerStepCount_fst {α : Type} [RowOps α K] (i j : Nat) :
    ∀ (l : List Nat) (st : (α × Bool) × Nat),
      (l.foldl (innerStepCount i j) st).1 = l.foldl (innerStep i j) st.1 := by
  intro l
  induction l with
  | nil => intro st; rfl
  | cons x xs ih =>
      intro st
      rw [List.foldl_cons, List.foldl_cons]
      exact ih _

theorem colStepCount_mat_piv {α : Type} [RowOps α K] (st : CountState α) (j : Nat) :
    ((colStepCount st j).mat, (colStepCount st j).piv) = colStep (st.mat, st.piv) j := by
  simp only [colStepCount, colStep]
  rw [foldl_innerStepCount_fst]

theorem runColsCount_succ {α : Type} [RowOps α K] (A : α) (t : Nat) :
    runColsCount A (t + 1) = colStepCount (runColsCount A t) t := by
  unfold runColsCount
  rw [List.range_succ, List.foldl_append]
  rfl

theorem runColsCount_mat_piv {α : Type} [RowOps α K] (A : α) :
    ∀ t, ((runColsCount A t).mat, (runColsCount A t).piv) = runCols A t := by
  intro t
  induction t with
  | zero => rfl
  | succ t ih =>
      rw [runColsCount_succ, colStepCount_mat_piv, ih, ← runCols_succ]

theorem foldl_colStepCount_iters {α : Type} [RowOps α K] :
    ∀ (l : List Nat) (st : CountState α),
      (l.foldl colStepCount st).iters = st.iters + l.length := by
  intro l
  induction l with
  | nil => intro st; simp
  | cons x xs ih =>
      intro st
      rw [List.foldl_cons, ih]
      have h1 : (colStepCount st x).iters = st.iters + 1 := rfl
      rw [h1, List.length_cons]
      omega

theorem transformCount_iters {α : Type} [RowOps α K] (A : α) :
    (transformCount A).iters = RowOps.n_cols A := by
  unfold transformCount
  rw [foldl_colStepCount_iters]
  simp

theorem runCols_snd_mono (A : Matrix m n K) (t : Nat) :
    (runCols A t).2 ≤ (runCols A (t + 1)).2 := by
  rw [runCols_succ]
  have h2 : ((runCols A t).1, (runCols A t).2) = runCols A t := rfl
  rcases colStep_snd (runCols A t).1 (runCols A t).2 t with h | h <;>
    rw [h2] at h <;> omega

theorem runCols_snd_le (A : Matrix m n K) : ∀ t, (runCols A t).2 ≤ m := by
  intro t
  induction t with
  | zero => exact Nat.zero_le m
  | succ t ih =>
      rw [runCols_succ]
      have h2 : ((runCols A t).1, (runCols A t).2) = runCols A t := rfl
      have h3 := colStep_snd_le (A := (runCols A t).1) (i := (runCols A t).2) t ih
      rw [h2] at h3
      exact h3

theorem foldl_innerStepCount_le_true {α : Type} [RowOps α K] (i j : Nat) :
    ∀ (l : List Nat) (M : α) (c : Nat),
      (l.foldl (innerStepCount i j) ((M, true), c)).2 ≤ c + l.length := by
  intro l
  induction l with
  | nil => intro M c; simp
  | cons x xs ih =>
      intro M c
      rw [List.foldl_cons]
      by_cases hnz : (RowOps.get_row M x)[j]?.getD 0 = 0
      · have h1 : innerStepCount i j ((M, true), c) x = ((M, true), c) := by
          simp [innerStepCount, innerStep, hnz]
        rw [h1, List.length_cons]
        have := ih M c
        omega
      · have h1 : innerStepCount i j ((M, true), c) x =
            ((RowOps.add_rows M x i (0 - 1 * (RowOps.get_row M x).getD j 0), true), c + 1) := by
          simp [innerStepCount, innerStep, hnz]
        rw [h1, List.length_cons]
        have := ih (RowOps.add_rows M x i (0 - 1 * (RowOps.get_row M x).getD j 0)) (c + 1)
        omega

theorem foldl_innerStepCount_le_false {α : Type} [RowOps α K] (i j : Nat) :
    ∀ (l : List Nat) (M : α) (c : Nat),
      (l.foldl (innerStepCount i j) ((M, false), c)).2 ≤ c + l.length + 1 := by
  intro l
  induction l with
  | nil => intro M c; simp
  | cons x xs ih =>
      intro M c
      rw [List.foldl_cons]
      by_cases hnz : (RowOps.get_row M x)[j]?.getD 0 = 0
      · have h1 : innerStepCount i j ((M, false), c) x = ((M, false), c) := by
          simp [innerStepCount, innerStep, hnz]
        rw [h1, List.length_cons]
        have := ih M c
        omega
      · have h1 : innerStepCount i j ((M, false), c) x =
            ((RowOps.scale_row (RowOps.swap_rows M i x) i
                (1 / (RowOps.get_row (RowOps.swap_rows M i x) i).getD j 0), true), c + 2) := by
          simp [innerStepCount, innerStep, hnz]
        rw [h1, List.length_cons]
        have := foldl_innerStepCount_le_true i j xs
          (RowOps.scale_row (RowOps.swap_rows M i x) i
            (1 / (RowOps.get_row (RowOps.swap_rows M i x) i).getD j 0)) (c + 2)
        omega

theorem colStepCount_opCount (st : CountState (Matrix m n K)) (j : Nat) :
    (colStepCount st j).opCount ≤ st.opCount + m + 1 := by
  have h1 : (colStepCount st j).opCount =
      ((List.range' st.piv (m - st.piv)).foldl (innerStepCount st.piv j)
        ((st.mat, false), st.opCount)).2 := rfl
  rw [h1]
  have h2 := foldl_innerStepCount_le_false st.piv j (List.range' st.piv (m - st.piv))
    st.mat st.opCount
  rw [List.length_range'] at h2
  omega

theorem runColsCount_opCount (A : Matrix m n K) :
    ∀ t, (runColsCount A t).opCount ≤ t * (m + 1) := by
  intro t
  induction t with
  | zero =>
      have h0 : (runColsCount A 0).opCount = 0 := rfl
      omega
  | succ t ih =>
      rw [runColsCount_succ]
      have h1 := colStepCount_opCount (runColsCount A t) t
      have h2 : (t + 1) * (m + 1) = t * (m + 1) + (m + 1) := by ring
      omega

theorem transformCount_opCount (A : Matrix m n K) :
    (transformCount A).opCount ≤ (m + 1) * n := by
  have h1 : transformCount A = runColsCount A n := rfl
  rw [h1]
  have h2 := runColsCount_opCount A n
  have h3 : n * (m + 1) = (m + 1) * n := Nat.mul_comm n (m + 1)
  omega

end Counting

section Trace

theorem foldl_mul_range' {K : Type} [CommMonoid K] (f : Nat → K) :
    ∀ (M s : Nat) (a : K), (List.range' s M).foldl (fun t i => t * f i) a =
      a * ∏ i ∈ Finset.range M, f (s + i) := by
  intro M
  induction M with
  | zero => intro s a; simp
  | succ M ih =>
      intro s a
      rw [List.range'_succ, List.foldl_cons, ih (s + 1) (a * f s), Finset.prod_range_succ']
      have hidx : ∀ x, f (s + 1 + x) = f (s + (x + 1)) := by
        intro x
        have hx : s + 1 + x = s + (x + 1) := by omega
        rw [hx]
      simp only [hidx, Nat.add_zero]
      rw [mul_assoc, mul_comm (f s)]

theorem trace_eq_prod {K : Type} [CommMonoid K] {N : Nat} (A : SquareMatrix N K)
    (h : 1 ≤ N) : trace A = ∏ i ∈ Finset.range N, A.data i i := by
  unfold trace
  rw [foldl_mul_range']
  obtain ⟨M, rfl⟩ : ∃ M, N = M + 1 := ⟨N - 1, by omega⟩
  simp only [Nat.add_sub_cancel]
  rw [Finset.prod_range_succ']
  have hidx : ∀ x : Nat, A.data (1 + x) (1 + x) = A.data (x + 1) (x + 1) := by
    intro x
    have hx : 1 + x = x + 1 := by omega
    rw [hx]
  simp only [hidx]
  rw [mul_comm]

end Trace

end Malg

namespace Malg


/-- C1: for every square diagonal matrix whose diagonal entries are all
non-zero, `transform_to_row_echelon_form` rewrites it in place to the
identity matrix (ones on the diagonal, zeros elsewhere). -/
theorem C1_diagonal_to_identity {K : Type} [Field K] [DecidableEq K] {N : Nat}
    (A : Matrix N N K)
    (hd : ∀ r, r < N → ∀ c, c < N → r ≠ c → A.data r c = 0)
    (hz : ∀ r, r < N → A.data r r ≠ 0) :
    ∀ r, r < N → ∀ c, c < N →
      (transform_to_row_echelon_form A).data r c = if r = c then 1 else 0 :=
  transform_diagonal A hd hz

/-- C1 witness: the hypotheses and conclusion of `C1_diagonal_to_identity`
hold at a concrete diagonal matrix over `F2`. -/
theorem C1_witness :
    (∀ r, r < 2 → ∀ c, c < 2 → r ≠ c → diagExample.data r c = 0) ∧
    (∀ r, r < 2 → diagExample.data r r ≠ 0) ∧
    (∀ r, r < 2 → ∀ c, c < 2 →
      (transform_to_row_echelon_form diagExample).data r c = if r = c then 1 else 0) :=
  ⟨by decide, by decide, C1_diagonal_to_identity diagExample (by decide) (by decide)⟩

/-- C4 (amended): the column loop of `transform_to_row_echelon_form` runs
exactly `n_cols` times, the pivot row counter is monotonically
non-decreasing and never exceeds `n_rows`, and the whole run issues at
most `(n_rows + 1) * n_cols` row operations (`swap_rows`, `scale_row` and
`add_rows` calls combined); the instrumented run computes the same matrix
as the reduction itself. -/
theorem C4_termination_and_bounds {K : Type} [Field K] [DecidableEq K] {m n : Nat}
    (A : Matrix m n K) :
    (transformCount A).mat = transform_to_row_echelon_form A ∧
    (transformCount A).iters = RowOps.n_cols A ∧
    (∀ t, (runColsCount A t).piv ≤ (runColsCount A (t + 1)).piv) ∧
    (∀ t, (runColsCount A t).piv ≤ RowOps.n_rows A) ∧
    (transformCount A).opCount ≤ (RowOps.n_rows A + 1) * RowOps.n_cols A := by
  refine ⟨?_, transformCount_iters A, ?_, ?_, ?_⟩
  · exact congrArg Prod.fst (runColsCount_mat_piv A n)
  · intro t
    have e1 : (runColsCount A t).piv = (runCols A t).2 :=
      congrArg Prod.snd (runColsCount_mat_piv A t)
    have e2 : (runColsCount A (t + 1)).piv = (runCols A (t + 1)).2 :=
      congrArg Prod.snd (runColsCount_mat_piv A (t + 1))
    have h3 := runCols_snd_mono A t
    omega
  · intro t
    have e1 : (runColsCount A t).piv = (runCols A t).2 :=
      congrArg Prod.snd (runColsCount_mat_piv A t)
    have h3 := runCols_snd_le A t
    rw [rowOps_n_rows_matrix]
    omega
  · rw [rowOps_n_rows_matrix, rowOps_n_cols_matrix]
    exact transformCount_opCount A

/-- C4 counterexample: on the 1-by-1 matrix `[[1]]` the reduction issues
two row operations (`swap_rows(0,0)` then `scale_row(0, 1/1)`), which
exceeds `n_rows() * n_cols() = 1`; the claimed bound of
`n_rows() * n_cols()` row operations is therefore false. -/
theorem C4_counterexample :
    (transformCount oneByOneExample).opCount = 2 ∧
    ¬((transformCount oneByOneExample).opCount ≤
        RowOps.n_rows oneByOneExample * RowOps.n_cols oneByOneExample) := by
  constructor
  · decide
  · decide

/-- C9: `transform_to_row_echelon_form` is idempotent on its outputs: a
matrix already in row echelon form is left unchanged by the reduction. -/
theorem C9_idempotent_on_ref {K : Type} [Field K] [DecidableEq K] {m n : Nat}
    (A : Matrix m n K) (h : IsREF A) :
    transform_to_row_echelon_form A = A :=
  transform_of_isREF h

/-- C9 witness: the matrix `[[1,1,0],[0,0,1]]` over `F2` is in row
echelon form and is left unchanged by the reduction. -/
theorem C9_witness :
    IsREF refExample ∧ transform_to_row_echelon_form refExample = refExample := by
  have h : IsREF refExample := by
    refine ⟨2, by omega, fun t => if t = 0 then 0 else 2, ?_, ?_, ?_⟩
    · intro t1 t2 h1 h2
      have ht2 : t2 = 1 := by omega
      have ht1 : t1 = 0 := by omega
      subst ht2
      subst ht1
      decide
    · decide
    · intro u h1 h2 c _
      exact absurd h2 (by omega)
  exact ⟨h, C9_idempotent_on_ref refExample h⟩

end Malg

namespace Malg

/-- C2 counterexample: the matrix `[[0,1,0],[0,0,1]]` over `F2` has full
row rank (its rows are linearly independent), but the reduction leaves it
unchanged and its `(0,0)` entry is `0`, not the multiplicative
identity — so full row rank alone does not put 1s on the leading
diagonal. -/
theorem C2_counterexample :
    LinearIndependent F2 (rowsFam wideIndepExample) ∧
    ¬((transform_to_row_echelon_form wideIndepExample).data 0 0 = 1) := by
  constructor
  · refine Fintype.linearIndependent_iff.mpr ?_
    intro g hg
    have h1 := congrFun hg 1
    have h2 := congrFun hg 2
    simp only [Finset.sum_apply, Fin.sum_univ_two, Pi.add_apply, Pi.smul_apply,
      smul_eq_mul, Pi.zero_apply] at h1 h2
    rw [show rowsFam wideIndepExample 0 1 = 1 from by decide,
      show rowsFam wideIndepExample 1 1 = 0 from by decide, mul_one, mul_zero,
      add_zero] at h1
    rw [show rowsFam wideIndepExample 0 2 = 0 from by decide,
      show rowsFam wideIndepExample 1 2 = 1 from by decide, mul_one, mul_zero,
      zero_add] at h2
    intro i
    fin_cases i
    · exact h1
    · exact h2
  · decide

/-- C2 (amended): for every square matrix with linearly independent rows
(full rank), `transform_to_row_echelon_form` produces the multiplicative
identity at every position `(t, t)` of the leading diagonal and the
additive identity at every position below the diagonal in each of those
columns.  (The unamended claim, over all full-row-rank matrices, fails on
`wideIndepExample`.) -/
theorem C2_square_full_rank_pivots {K : Type} [Field K] [DecidableEq K] {N : Nat}
    (A : Matrix N N K) (h : LinearIndependent K (rowsFam A)) :
    ∀ t, t < N → (transform_to_row_echelon_form A).data t t = 1 ∧
      ∀ u, t < u → u < N → (transform_to_row_echelon_form A).data u t = 0 := by
  obtain ⟨piv, hInv⟩ := runCols_inv A N le_rfl
  have hrN : (runCols A N).2 = N := (linearIndependent_rows_iff A).mp h
  rw [hrN] at hInv
  have hub : ∀ t, t < N → t ≤ piv t := by
    intro t
    induction t with
    | zero => intro _; exact Nat.zero_le _
    | succ t ih =>
        intro ht
        have h1 := ih (by omega)
        have h2 := hInv.mono t (t + 1) (by omega) ht
        omega
  have hchain : ∀ d a, a + d < N → piv a + d ≤ piv (a + d) := by
    intro d
    induction d with
    | zero => intro a _; simp
    | succ d ih =>
        intro a ha
        have h1 := ih a (by omega)
        have h2 := hInv.mono (a + d) (a + d + 1) (by omega) (by omega)
        show piv a + (d + 1) ≤ piv (a + d + 1)
        omega
  have hlb : ∀ t, t < N → piv t ≤ t := by
    intro t ht
    have hplt := hInv.plt (N - 1) (by omega)
    have h2 := hchain (N - 1 - t) t (by omega)
    have he : t + (N - 1 - t) = N - 1 := by omega
    rw [he] at h2
    omega
  intro t ht
  have hpt : piv t = t := le_antisymm (hlb t ht) (hub t ht)
  constructor
  · have h1 := hInv.lead t ht
    rw [hpt] at h1
    rw [transform_eq_runCols]
    exact h1
  · intro u htu huN
    have hpu : piv u = u := le_antisymm (hlb u huN) (hub u huN)
    rw [transform_eq_runCols]
    exact hInv.before u huN t (by rw [hpu]; exact htu)

/-- C2 witness: the square matrix `[[0,1],[1,0]]` over `F2` has linearly
independent rows, and the amended conclusion holds for it. -/
theorem C2_witness :
    LinearIndependent F2 (rowsFam squareSwapExample) ∧
    (∀ t, t < 2 → (transform_to_row_echelon_form squareSwapExample).data t t = 1 ∧
      ∀ u, t < u → u < 2 →
        (transform_to_row_echelon_form squareSwapExample).data u t = 0) := by
  have hind : LinearIndependent F2 (rowsFam squareSwapExample) := by
    refine Fintype.linearIndependent_iff.mpr ?_
    intro g hg
    have h1 := congrFun hg 0
    have h2 := congrFun hg 1
    simp only [Finset.sum_apply, Fin.sum_univ_two, Pi.add_apply, Pi.smul_apply,
      smul_eq_mul, Pi.zero_apply] at h1 h2
    rw [show rowsFam squareSwapExample 0 (0 : Fin 2) = 0 from by decide,
      show rowsFam squareSwapExample 1 (0 : Fin 2) = 1 from by decide, mul_one, mul_zero,
      zero_add] at h1
    rw [show rowsFam squareSwapExample 0 (1 : Fin 2) = 1 from by decide,
      show rowsFam squareSwapExample 1 (1 : Fin 2) = 0 from by decide, mul_one, mul_zero,
      add_zero] at h2
    intro i
    fin_cases i
    · exact h2
    · exact h1
  exact ⟨hind, C2_square_full_rank_pivots squareSwapExample hind⟩

/-- C3 counterexample: the matrix `[[1,0]]` over `F2` has fewer linearly
independent rows (one) than columns (two), yet the reduction leaves no
fully-zero row — so the hypothesis cannot compare the rank with the
column count. -/
theorem C3_counterexample :
    Module.finrank F2 ↥(rowSpan singleRowExample) < 2 ∧
    ¬(∃ r0, r0 < 1 ∧ ∀ c, c < 2 →
        (transform_to_row_echelon_form singleRowExample).data r0 c = 0) := by
  constructor
  · have hv : rowsFam singleRowExample default ≠ 0 := by
      intro hcon
      have h0 := congrFun hcon 0
      simp only [Pi.zero_apply] at h0
      rw [show rowsFam singleRowExample default (0 : Fin 2) = 1 from by decide] at h0
      exact absurd h0 (by decide)
    have hr : Set.range (rowsFam singleRowExample) = {rowsFam singleRowExample default} :=
      Set.range_unique
    have hfin : Module.finrank F2 ↥(rowSpan singleRowExample) = 1 := by
      unfold rowSpan
      rw [hr]
      exact finrank_span_singleton hv
    omega
  · rintro ⟨r0, hr0, hall⟩
    have hr00 : r0 = 0 := by omega
    subst hr00
    have h1 := hall 0 (by omega)
    rw [show (transform_to_row_echelon_form singleRowExample).data 0 0 = 1 from by decide]
      at h1
    exact absurd h1 (by decide)

/-- C3 (amended): for every matrix with fewer linearly independent rows
than rows (row-space rank `< n_rows`), the reduction leaves at least one
fully-zero row, and in the result every nonzero row's leading entry is
the multiplicative identity and lies strictly to the right of the
previous nonzero row's leading entry (rows `0..r-1` carry the strictly
increasing leading-1 columns, rows `r..m-1` are zero).  (The unamended
claim, comparing the rank with the column count, fails on
`singleRowExample`.) -/
theorem C3_dependent_rows_zero_row {K : Type} [Field K] [DecidableEq K] {m n : Nat}
    (A : Matrix m n K) (h : Module.finrank K ↥(rowSpan A) < m) :
    (∃ r0, r0 < m ∧ ∀ c, c < n → (transform_to_row_echelon_form A).data r0 c = 0) ∧
    (∃ r, r ≤ m ∧ ∃ piv : Nat → Nat,
      (∀ t1 t2, t1 < t2 → t2 < r → piv t1 < piv t2) ∧
      (∀ t, t < r → piv t < n ∧ (transform_to_row_echelon_form A).data t (piv t) = 1 ∧
        ∀ c, c < piv t → (transform_to_row_echelon_form A).data t c = 0) ∧
      (∀ u, r ≤ u → u < m → ∀ c, c < n →
        (transform_to_row_echelon_form A).data u c = 0)) := by
  obtain ⟨piv, hInv⟩ := runCols_inv A n le_rfl
  have hrank := finrank_rowSpan_runCols A
  have hrm : (runCols A n).2 < m := by omega
  constructor
  · refine ⟨(runCols A n).2, hrm, fun c hc => ?_⟩
    rw [transform_eq_runCols]
    exact hInv.below _ le_rfl hrm c hc
  · refine ⟨(runCols A n).2, hInv.hi, piv, hInv.mono, fun t ht => ?_,
      fun u hu hum c hc => ?_⟩
    · refine ⟨hInv.plt t ht, ?_, fun c hc => ?_⟩
      · rw [transform_eq_runCols]
        exact hInv.lead t ht
      · rw [transform_eq_runCols]
        exact hInv.before t ht c hc
    · rw [transform_eq_runCols]
      exact hInv.below u hu hum c hc

/-- C3 witness: the matrix `[[1,0],[1,0]]` over `F2` has linearly
dependent rows, and its reduction leaves a fully-zero row. -/
theorem C3_witness :
    Module.finrank F2 ↥(rowSpan depRowsExample) < 2 ∧
    (∃ r0, r0 < 2 ∧ ∀ c, c < 2 →
      (transform_to_row_echelon_form depRowsExample).data r0 c = 0) := by
  have hr : Set.range (rowsFam depRowsExample) = {rowsFam depRowsExample 0} := by
    apply Set.Subset.antisymm
    · rintro x ⟨s, rfl⟩
      have hs : rowsFam depRowsExample s = rowsFam depRowsExample 0 := by
        funext c
        rfl
      rw [hs]
      exact rfl
    · rintro x hx
      rw [Set.mem_singleton_iff] at hx
      exact ⟨0, hx.symm⟩
  have hv : rowsFam depRowsExample 0 ≠ 0 := by
    intro hcon
    have h0 := congrFun hcon 0
    simp only [Pi.zero_apply] at h0
    rw [show rowsFam depRowsExample 0 (0 : Fin 2) = 1 from by decide] at h0
    exact absurd h0 (by decide)
  have hfin : Module.finrank F2 ↥(rowSpan depRowsExample) < 2 := by
    unfold rowSpan
    rw [hr]
    have h1 : Module.finrank F2
        ↥(Submodule.span F2 {rowsFam depRowsExample 0}) = 1 :=
      finrank_span_singleton hv
    omega
  exact ⟨hfin, (C3_dependent_rows_zero_row depRowsExample hfin).1⟩

end Malg

namespace Malg

/-- C5: every row operation on an augmented composition equals the
identical operation, with identical row indices and identical scalar,
applied independently to the left matrix and to the right matrix. -/
theorem C5_augmented_ops_componentwise {K : Type} [Field K] [DecidableEq K]
    {m n p : Nat} (C : AugmentedMatrix m n p K) (i j : Nat) (a : K)
    (hi : i < m) (hj : j < m) :
    (RowOps.swap_rows C i j).left = RowOps.swap_rows C.left i j ∧
    (RowOps.swap_rows C i j).right = RowOps.swap_rows C.right i j ∧
    (RowOps.scale_row C i a).left = RowOps.scale_row C.left i a ∧
    (RowOps.scale_row C i a).right = RowOps.scale_row C.right i a ∧
    (RowOps.add_rows C i j a).left = RowOps.add_rows C.left i j a ∧
    (RowOps.add_rows C i j a).right = RowOps.add_rows C.right i j a :=
  ⟨rfl, rfl, rfl, rfl, rfl, rfl⟩

/-- C5 witness: the componentwise behaviour at a concrete augmented
composition over `F2`, with valid indices 0 and 1 and scalar 1. -/
theorem C5_witness :
    (RowOps.swap_rows augExample 0 1).left = RowOps.swap_rows augExample.left 0 1 ∧
    (RowOps.swap_rows augExample 0 1).right = RowOps.swap_rows augExample.right 0 1 ∧
    (RowOps.scale_row augExample 0 (1 : F2)).left =
      RowOps.scale_row augExample.left 0 (1 : F2) ∧
    (RowOps.scale_row augExample 0 (1 : F2)).right =
      RowOps.scale_row augExample.right 0 (1 : F2) ∧
    (RowOps.add_rows augExample 0 1 (1 : F2)).left =
      RowOps.add_rows augExample.left 0 1 (1 : F2) ∧
    (RowOps.add_rows augExample 0 1 (1 : F2)).right =
      RowOps.add_rows augExample.right 0 1 (1 : F2) :=
  C5_augmented_ops_componentwise augExample 0 1 1 (by decide) (by decide)

/-- C6: on an augmented composition, `get_row` returns exactly the left
part's row (never any entry of the right matrix), and `n_cols` reports
the column count of the left part only. -/
theorem C6_get_row_left_only {K : Type} [Field K] [DecidableEq K] {m n p : Nat}
    (C : AugmentedMatrix m n p K) (i : Nat) (hi : i < m) :
    RowOps.get_row C i = RowOps.get_row C.left i ∧
    RowOps.get_row C i = (List.range n).map (fun c => C.left.data i c) ∧
    RowOps.n_cols C = RowOps.n_cols C.left ∧
    RowOps.n_cols C = n :=
  ⟨rfl, rfl, rfl, rfl⟩

/-- C6 witness: `get_row` and `n_cols` at a concrete augmented
composition over `F2`, with the valid row index 0. -/
theorem C6_witness :
    RowOps.get_row augExample 0 = RowOps.get_row augExample.left 0 ∧
    RowOps.get_row augExample 0 = (List.range 2).map (fun c => augExample.left.data 0 c) ∧
    RowOps.n_cols augExample = RowOps.n_cols augExample.left ∧
    RowOps.n_cols augExample = 2 :=
  C6_get_row_left_only augExample 0 (by decide)

/-- C7: `add_rows(i, j, a)` replaces row `i` with the entrywise sum
`row i + a * row j`; every row other than `i` (in particular row `j` when
`i ≠ j`) is left unchanged; and when `i = j`, row `i` becomes
`row i * (1 + a)`, because the old value of row `j` is read before row
`i` is modified. -/
theorem C7_add_rows_spec {K : Type} [Field K] [DecidableEq K] {m n : Nat}
    (A : Matrix m n K) (i j : Nat) (a : K) (hi : i < m) (hj : j < m) :
    (∀ c, c < n → (A.add_rows i j a).data i c = A.data i c + a * A.data j c) ∧
    (∀ r, r < m → r ≠ i → ∀ c, (A.add_rows i j a).data r c = A.data r c) ∧
    (i = j → ∀ c, c < n → (A.add_rows i j a).data i c = A.data i c * (1 + a)) := by
  refine ⟨fun c _ => ?_, fun r _ hr c => ?_, fun hij c _ => ?_⟩
  · rw [add_rows_data, if_pos rfl, mul_comm (A.data j c) a]
  · rw [add_rows_data, if_neg hr]
  · subst hij
    rw [add_rows_data, if_pos rfl]
    ring

/-- C7 witness: `add_rows` behaviour at a concrete matrix over `F2`,
with valid row indices 1 and 0 and scalar 1. -/
theorem C7_witness :
    (∀ c, c < 2 → (addRowsExample.add_rows 1 0 (1 : F2)).data 1 c =
      addRowsExample.data 1 c + 1 * addRowsExample.data 0 c) ∧
    (∀ r, r < 2 → r ≠ 1 → ∀ c,
      (addRowsExample.add_rows 1 0 (1 : F2)).data r c = addRowsExample.data r c) ∧
    ((1 : Nat) = 0 → ∀ c, c < 2 → (addRowsExample.add_rows 1 0 (1 : F2)).data 1 c =
      addRowsExample.data 1 c * (1 + 1)) :=
  C7_add_rows_spec addRowsExample 1 0 1 (by decide) (by decide)

/-- C8: a call to `swap_rows`, `scale_row`, `add_rows` or `get_row` on a
matrix fails (panics, modelled as `none`) if and only if a supplied row
index is `≥ n_rows()`; with all indices `< n_rows()` the call succeeds
and returns the corresponding in-place update.  The failure is the
checked call's own result — nothing is retried or suppressed. -/
theorem C8_out_of_range_checks {K : Type} [Field K] [DecidableEq K] {m n : Nat}
    (A : Matrix m n K) (i j : Nat) (a : K) :
    RowOps.n_rows A = m ∧
    ((A.checked_swap_rows i j).isSome ↔ (i < m ∧ j < m)) ∧
    ((A.checked_scale_row i a).isSome ↔ i < m) ∧
    ((A.checked_add_rows i j a).isSome ↔ (i < m ∧ j < m)) ∧
    ((A.checked_get_row i).isSome ↔ i < m) ∧
    (i < m → j < m → A.checked_swap_rows i j = some (A.swap_rows i j)) ∧
    (i < m → A.checked_scale_row i a = some (A.scale_row i a)) ∧
    (i < m → j < m → A.checked_add_rows i j a = some (A.add_rows i j a)) ∧
    (i < m → A.checked_get_row i = some (A.get_row i)) := by
  refine ⟨rfl, ?_, ?_, ?_, ?_, ?_, ?_, ?_, ?_⟩
  · unfold Matrix.checked_swap_rows
    by_cases h : i < m ∧ j < m <;> simp [h]
  · unfold Matrix.checked_scale_row
    by_cases h : i < m <;> simp [h]
  · unfold Matrix.checked_add_rows
    by_cases h : i < m ∧ j < m <;> simp [h]
  · unfold Matrix.checked_get_row
    by_cases h : i < m <;> simp [h]
  · intro h1 h2
    simp [Matrix.checked_swap_rows, h1, h2]
  · intro h1
    simp [Matrix.checked_scale_row, h1]
  · intro h1 h2
    simp [Matrix.checked_add_rows, h1, h2]
  · intro h1
    simp [Matrix.checked_get_row, h1]

/-- C8 witness: the checked operations at a concrete matrix over `F2`:
in-range indices succeed and an out-of-range index fails. -/
theorem C8_witness :
    checkedExample.checked_swap_rows 0 1 = some (checkedExample.swap_rows 0 1) ∧
    checkedExample.checked_get_row 0 = some (checkedExample.get_row 0) ∧
    ¬((checkedExample.checked_scale_row 5 (1 : F2)).isSome) := by
  refine ⟨?_, ?_, ?_⟩
  · exact (C8_out_of_range_checks checkedExample 0 1 1).2.2.2.2.2.1 (by decide) (by decide)
  · exact (C8_out_of_range_checks checkedExample 0 1 1).2.2.2.2.2.2.2.2 (by decide)
  · intro hcon
    have h := ((C8_out_of_range_checks checkedExample 5 1 (1 : F2)).2.2.1).mp hcon
    omega

/-- C10: for every `N`-by-`N` square matrix with `N ≥ 1`, `trace` returns
the product of the diagonal entries
`data[0][0] * data[1][1] * ... * data[N-1][N-1]`, not their sum. -/
theorem C10_trace_is_product {K : Type} [CommMonoid K] {N : Nat}
    (A : SquareMatrix N K) (h : 1 ≤ N) :
    trace A = ∏ i ∈ Finset.range N, A.data i i :=
  trace_eq_prod A h

/-- C10 witness: `trace` at the concrete 3-by-3 identity over `F2`. -/
theorem C10_witness :
    (1 : Nat) ≤ 3 ∧
    trace traceExample = ∏ i ∈ Finset.range 3, traceExample.data i i :=
  ⟨by decide, C10_trace_is_product traceExample (by decide)⟩

end Malg
